import Mathlib

set_option maxHeartbeats 1000000

/-!
Verification development for qxtags: a tag-index generator for a
class-definition dialect.  The embedding models `SrcMgr` (source registry),
the class extractor, the tag emitter (`genCtags`) and `DirMgr._rm`
from `src/qxtags.js`.

JavaScript `Map` is insertion-ordered; `JsMap` models a `Map` as an
association list where `jset` replaces an existing binding in place and
appends a fresh binding at the end, and `jdel` removes the binding,
exactly as `Map.prototype.set` / `Map.prototype.delete` behave.
-/

abbrev JsMap (K V : Type) := List (K × V)

variable {K V : Type} [DecidableEq K]

def jget : JsMap K V → K → Option V
  | [], _ => none
  | (k', v) :: m, k => if k' = k then some v else jget m k

def jset : JsMap K V → K → V → JsMap K V
  | [], k, v => [(k, v)]
  | (k', v') :: m, k, v => if k' = k then (k, v) :: m else (k', v') :: jset m k v

def jdel : JsMap K V → K → JsMap K V
  | [], _ => []
  | (k', v') :: m, k => if k' = k then jdel m k else (k', v') :: jdel m k

def jkeys (m : JsMap K V) : List K := m.map (·.1)

def jvalues (m : JsMap K V) : List V := m.map (·.2)

def jhas (m : JsMap K V) (k : K) : Bool := (jget m k).isSome

/-!
AST model.  The external parser/regenerator (esprima/escodegen) is out of
scope of the core and is modelled at its interface boundary: every node
carries its source start line (`loc.start.line`), call nodes carry callee
and arguments, object-literal nodes carry key/value entries, function
nodes carry parameter lists.  `Ast.other` stands for any further node
kind and carries the text the regenerator would produce for it.
-/

inductive Ast where
  | identifier (name : String) (line : Nat)
  | literal (value : String) (line : Nat)
  | member (obj : Ast) (propName : String) (line : Nat)
  | array (elements : List Ast) (line : Nat)
  | func (params : List Ast) (line : Nat)
  | object (props : List (Ast × Ast)) (line : Nat)
  | call (callee : Ast) (args : List Ast) (line : Nat)
  | other (gen : String) (line : Nat)

def Ast.line : Ast → Nat
  | .identifier _ l => l
  | .literal _ l => l
  | .member _ _ l => l
  | .array _ l => l
  | .func _ l => l
  | .object _ l => l
  | .call _ _ l => l
  | .other _ l => l

/-- Model of `escodegen.generate` restricted to the node shapes the core
feeds it (names and simple expressions); composite nodes regenerate to a
fixed placeholder, `Ast.other` carries its own regenerated text.  The
regenerator is an external collaborator, specified only at its boundary. -/
def generate : Ast → String
  | .identifier n _ => n
  | .literal v _ => v
  | .member o pr _ => generate o ++ "." ++ pr
  | .array _ _ => "[Array]"
  | .func _ _ => "function () \x7b\x7d"
  | .object _ _ => "\x7b\x7d"
  | .call _ _ _ => "(call)"
  | .other g _ => g

/-- JS `prop.key.type==='Identifier' ? prop.key.name : prop.key.value`:
identifier keys contribute their name, literal keys their value; on any
other node `.value` is `undefined`, which JS later stringifies. -/
def keyName : Ast → String
  | .identifier n _ => n
  | .literal v _ => v
  | _ => "undefined"

/-- JS `.value` of an argument node (used for `candidate.arguments[0].value`):
defined only on literals, `undefined` (stringified) otherwise. -/
def astValue : Ast → String
  | .literal v _ => v
  | _ => "undefined"

/-- Section dispatch key: JS `t.key.name`, defined only on identifiers. -/
def sectionName : Ast → Option String
  | .identifier n _ => some n
  | _ => none

inductive Stmt where
  | exprStmt (e : Ast) (line : Nat)
  | otherStmt (line : Nat)

abbrev Program := List Stmt

/-- Result of `fs.readFileSync` + `esprima.parseScript` for one path:
the parsed program, ENOENT, or any other read failure. -/
inductive ReadRes where
  | found (prog : Program)
  | notFound
  | readErr

/-- The (blocking, synchronous) file system seen by the registry. -/
abbrev FSys := String → ReadRes

inductive Err where
  | duplicateClassName
  | ioError
  | typeError
deriving DecidableEq

abbrev FPath := String

structure Tag where
  name : String
  t : Ast
  signature : Option String

structure SrcInfo where
  clsnames : List String

structure ClassInfo where
  srcPath : FPath
  name : String
  bodyT : Ast
  type : Option String
  extend : Option Tag
  incl : List Tag       -- JS field `include` (Lean keyword)
  implement : List Tag
  methods : List Tag
  properties : List Tag
  statics : List Tag
  events : List Tag

structure SrcMgr where
  srcs : JsMap FPath SrcInfo
  classes : JsMap String ClassInfo

def emptySrcMgr : SrcMgr := ⟨[], []⟩

/-- Signature text for a callable: parameter list regenerated and joined
by ", " inside parentheses. -/
def paramSig (ps : List Ast) : String :=
  "(" ++ String.intercalate ", " (ps.map generate) ++ ")"

/-- One entry of the `members` section: a function value becomes a method
(signature = regenerated parameter list), anything else a property
(signature = "(=" ++ regenerated default value ++ ")"). -/
def membersStep (c : ClassInfo) (kv : Ast × Ast) : ClassInfo :=
  match kv.2 with
  | .func ps _ =>
    { c with methods := c.methods ++
        [⟨keyName kv.1, kv.2, some (paramSig ps)⟩] }
  | v =>
    { c with properties := c.properties ++
        [⟨keyName kv.1, v, some ("(=" ++ generate v ++ ")")⟩] }

/-- One step of the section-dispatch `switch` inside `_parseClass`.
The second, dead `case 'include'` of the JS switch is unreachable by
construction and therefore has no counterpart here.  The `default`
branch only logs a warning and changes nothing. -/
def parseClassProp (cls : ClassInfo) (keyT valT : Ast) : Except Err ClassInfo :=
  match sectionName keyT with
  | none => .ok cls
  | some s =>
    if s = "extend" then .ok { cls with extend := some ⟨generate valT, valT, none⟩ }
    else if s = "include" then
      match valT with
      | .array els _ => .ok { cls with incl := els.map (fun t => ⟨generate t, t, none⟩) }
      | _ => .ok { cls with incl := [⟨generate valT, valT, none⟩] }
    else if s = "implement" then
      match valT with
      | .array els _ => .ok { cls with implement := els.map (fun t => ⟨generate t, t, none⟩) }
      | _ => .ok { cls with implement := [⟨generate valT, valT, none⟩] }
    else if s = "construct" then
      match valT with
      | .func ps _ => .ok { cls with methods := cls.methods ++ [⟨"[constructor]", valT, some (paramSig ps)⟩] }
      | _ => .error .typeError
    else if s = "destruct" then
      match valT with
      | .func ps _ => .ok { cls with methods := cls.methods ++ [⟨"[destructor]", valT, some (paramSig ps)⟩] }
      | _ => .error .typeError
    else if s = "statics" then
      match valT with
      | .object ps _ => .ok { cls with statics := cls.statics ++ ps.map (fun kv => ⟨keyName kv.1, kv.2, none⟩) }
      | _ => .error .typeError
    else if s = "members" then
      match valT with
      | .object ps _ => .ok (ps.foldl membersStep cls)
      | _ => .error .typeError
    else if s = "properties" then
      match valT with
      | .object ps _ => .ok { cls with properties := cls.properties ++ ps.map (fun kv => ⟨keyName kv.1, kv.2, none⟩) }
      | _ => .error .typeError
    else if s = "events" then
      match valT with
      | .object ps _ => .ok { cls with events := cls.events ++ ps.map (fun kv => ⟨keyName kv.1, kv.2, none⟩) }
      | _ => .error .typeError
    else if s = "type" then .ok { cls with type := some (generate valT) }
    else if s = "environment" then .ok cls
    else if s = "defer" then .ok cls
    else .ok cls

/-- `SrcMgr._parseClass`: fold the body's entries through the dispatch.
A body that is not an object literal makes JS throw a `TypeError` on
`bodyT.properties`. -/
def parseClass (srcPath : FPath) (name : String) (bodyT : Ast) : Except Err ClassInfo :=
  match bodyT with
  | .object props _ =>
    props.foldlM (fun cls kv => parseClassProp cls kv.1 kv.2)
      { srcPath := srcPath, name := name, bodyT := bodyT,
        type := none, extend := none, incl := [], implement := [],
        methods := [], properties := [], statics := [], events := [] }
  | _ => .error .typeError

/-- Top-level call expressions of the program — the esquery pattern
`Program>ExpressionStatement>CallExpression`, as (callee, arguments). -/
def callCands (prog : Program) : List (Ast × List Ast) :=
  prog.filterMap (fun s =>
    match s with
    | .exprStmt (.call callee args _) _ => some (callee, args)
    | _ => none)

/-- JS `candidate.arguments[0].value` (a `TypeError` crash if there is no
first argument is accounted for in `parseCand`). -/
def candName (cd : Ast × List Ast) : String :=
  match cd.2 with
  | a :: _ => astValue a
  | [] => "undefined"

/-- Extracting one `qx.Class.define` candidate: class name from the first
argument's literal value, body from the second argument.  Fewer than two
arguments crashes in JS (`undefined.value` / `undefined.properties`). -/
def parseCand (p : FPath) (cd : Ast × List Ast) : Except Err ClassInfo :=
  match cd.2 with
  | a0 :: a1 :: _ => parseClass p (astValue a0) a1
  | _ => .error .typeError

/-- `SrcMgr._parseClasses` over the candidate list: skip calls whose
regenerated callee is not `qx.Class.define`; parse each remaining
candidate, and fail fatally if the class table already holds that name
under a different owning path.  Parsed records are only collected here;
insertion happens in `addSrc` after the whole loop succeeds. -/
def parseClassesGo (ctab : JsMap String ClassInfo) (p : FPath) :
    List (Ast × List Ast) → Except Err (List ClassInfo)
  | [] => .ok []
  | cd :: rest =>
    if generate cd.1 = "qx.Class.define" then
      match parseCand p cd with
      | .error e => .error e
      | .ok cls =>
        match jget ctab (candName cd) with
        | some prev =>
          if prev.srcPath ≠ p then .error .duplicateClassName
          else
            match parseClassesGo ctab p rest with
            | .ok cl => .ok (cls :: cl)
            | .error e => .error e
        | none =>
          match parseClassesGo ctab p rest with
          | .ok cl => .ok (cls :: cl)
          | .error e => .error e
    else parseClassesGo ctab p rest

def parseClasses (m : SrcMgr) (p : FPath) (prog : Program) : Except Err (List ClassInfo) :=
  parseClassesGo m.classes p (callCands prog)

/-- The `for (let clsname of si.clsnames) this.classes.delete(clsname)`
loop of `_removeSrc`. -/
def removeClasses (ctab : JsMap String ClassInfo) (names : List String) :
    JsMap String ClassInfo :=
  names.foldl (fun c n => jdel c n) ctab

/-- The `for (let cls of classes) this.classes.set(cls.name, cls)` loop
of `_addSrc`. -/
def insertAll (cl : List ClassInfo) (ctab : JsMap String ClassInfo) :
    JsMap String ClassInfo :=
  cl.foldl (fun c cls => jset c cls.name cls) ctab

/-- `SrcMgr._removeSrc`: delete every class name the path currently
contributes, then the ownership entry itself; `false` if untracked. -/
def removeSrc (m : SrcMgr) (path : FPath) : SrcMgr × Bool :=
  match jget m.srcs path with
  | none => (m, false)
  | some si =>
    ({ srcs := jdel m.srcs path,
       classes := removeClasses m.classes si.clsnames }, true)

/-- `SrcMgr._addSrc` after a successful parse: collect the classes, store
the fresh ownership record, then insert every class record. -/
def addSrc (m : SrcMgr) (path : FPath) (prog : Program) : Except Err SrcMgr :=
  match parseClasses m path prog with
  | .error e => .error e
  | .ok classes =>
    .ok { srcs := jset m.srcs path ⟨classes.map (·.name)⟩,
          classes := insertAll classes m.classes }

/-- `SrcMgr.checkFile`.  The returned state is the registry (`this`) at
the moment the call returns or its exception propagates; the second
component is the JS outcome: `.ok false` for the non-fatal ENOENT return,
`.ok true` for a normal return, `.error e` for a propagated exception. -/
def checkFile (fs : FSys) (m : SrcMgr) (path : FPath) : SrcMgr × Except Err Bool :=
  match fs path with
  | .notFound => ((removeSrc m path).1, .ok false)
  | .readErr => ((removeSrc m path).1, .error .ioError)
  | .found prog =>
    match addSrc (removeSrc m path).1 path prog with
    | .ok m2 => (m2, .ok true)
    | .error e => ((removeSrc m path).1, .error e)

/-!
Tag emitter.  `genCtags` builds, per class, the class record, the
optional extends record, then one record per member across the six
member kinds, sorted ascending by source line.  JS `Array.prototype.sort`
is stable (ES2019), and a stable sort by a total key is unique, so the
comparator `(a, b) => a.lineno - b.lineno` is modelled by a stable
insertion sort on `lineno`.
-/

structure MemberTag where
  kind : String
  name : String
  lineno : Nat
  signature : Option String

def tagLE (a b : MemberTag) : Prop := a.lineno ≤ b.lineno

instance : DecidableRel tagLE := fun a b => Nat.decLe a.lineno b.lineno

instance : IsTotal MemberTag tagLE := ⟨fun a b => Nat.le_total a.lineno b.lineno⟩

instance : IsTrans MemberTag tagLE := ⟨fun _ _ _ => Nat.le_trans⟩

def sortMembers (l : List MemberTag) : List MemberTag := l.insertionSort tagLE

/-- The six member collections flattened in emission order (include,
implement, methods, properties, statics, events), each in extraction
order, before sorting. -/
def memberTags (cls : ClassInfo) : List MemberTag :=
  cls.incl.map (fun m => ⟨"n", m.name, m.t.line, m.signature⟩)
  ++ cls.implement.map (fun m => ⟨"i", m.name, m.t.line, m.signature⟩)
  ++ cls.methods.map (fun m => ⟨"m", m.name, m.t.line, m.signature⟩)
  ++ cls.properties.map (fun m => ⟨"p", m.name, m.t.line, m.signature⟩)
  ++ cls.statics.map (fun m => ⟨"s", m.name, m.t.line, m.signature⟩)
  ++ cls.events.map (fun m => ⟨"e", m.name, m.t.line, m.signature⟩)

/-- Access level inferred from the leading-underscore convention. -/
def accessOf (name : String) : String :=
  if name.startsWith "__" then "protected"
  else if name.startsWith "_" then "private"
  else "public"

def classFields (cls : ClassInfo) : List String :=
  [cls.name, cls.srcPath, toString cls.bodyT.line ++ ";\"", "c",
   "line:" ++ toString cls.bodyT.line, "type:class"]

def extendFields (cls : ClassInfo) (e : Tag) : List String :=
  [e.name, cls.srcPath, toString e.t.line ++ ";\"", "x",
   "line:" ++ toString e.t.line, "ctype:" ++ cls.name]

/-- An optional trailing field: absent, or the prefixed value. -/
def optField (pre : String) : Option String → List String
  | none => []
  | some v => [pre ++ v]

def memberFields (cls : ClassInfo) (mt : MemberTag) : List String :=
  [mt.name, cls.srcPath, toString mt.lineno ++ ";\"", mt.kind,
   "line:" ++ toString mt.lineno, "ctype:" ++ cls.name,
   "access:" ++ accessOf mt.name]
  ++ optField "signature:" mt.signature

/-- The tab-separated field lists of the records one class contributes,
in emission order. -/
def classRecords (cls : ClassInfo) : List (List String) :=
  classFields cls ::
    ((match cls.extend with
      | some e => [extendFields cls e]
      | none => [])
     ++ (sortMembers (memberTags cls)).map (memberFields cls))

/-- All records the emitter produces after the header, in order. -/
def ctagRecords (m : SrcMgr) : List (List String) :=
  ((jvalues m.classes).map classRecords).flatten

def ctagsHeader : String :=
  "!_TAG_FILE_FORMAT\t2\n!_TAG_FILE_SORTED\t1\t/0=unsorted, 1=sorted/\n!_TAG_PROGRAM_NAME\tqxtags\n!_TAG_PROGRAM_VERSION\t0.1\n"

/-- `SrcMgr.genCtags`: header, then every record joined by tabs, one per
line. -/
def genCtags (m : SrcMgr) : String :=
  ctagsHeader ++
    String.join ((ctagRecords m).map (fun fs => String.intercalate "\t" fs ++ "\n"))

/-!
Directory indexer: only the removal procedure `DirMgr._rm` is claimed
about; the directory set is insertion-ordered and duplicate-free as a JS
`Set`.  Events are returned as the list of paths carried by emitted
`rm` notifications.
-/

structure DirMgr where
  dirs : List FPath
  srcm : SrcMgr

/-- Sequential `checkFile` over a list of paths; a propagating exception
stops the loop (the registry keeps the mutations made so far). -/
def checkFiles (fs : FSys) (m : SrcMgr) : List FPath → SrcMgr × Option Err
  | [] => (m, none)
  | p :: ps =>
    match checkFile fs m p with
    | (m', .ok _) => checkFiles fs m' ps
    | (m', .error e) => (m', some e)

/-- `DirMgr._rm`: no-op returning false for an unknown directory;
otherwise drop every known directory prefixed by the path, re-check every
owned source path prefixed by it, and emit one `rm` notification. -/
def dirRm (fs : FSys) (d : DirMgr) (path : FPath) : DirMgr × List FPath × Except Err Bool :=
  if d.dirs.contains path then
    let dirs' := d.dirs.filter (fun s => !(path.isPrefixOf s))
    let rmSrcs := (jkeys d.srcm.srcs).filter (fun s => path.isPrefixOf s)
    match checkFiles fs d.srcm rmSrcs with
    | (m', none) => (⟨dirs', m'⟩, [path], .ok true)
    | (m', some e) => (⟨dirs', m'⟩, [], .error e)
  else (d, [], .ok false)

/-- Last element of the list with the given class name — the record that
survives after the `classes.set` loop. -/
def lastWith : List ClassInfo → String → Option ClassInfo
  | [], _ => none
  | r :: l, n =>
    match lastWith l n with
    | some x => some x
    | none => if r.name = n then some r else none

/-!
The registry's ownership invariant (claim C1): for every tracked path p,
the set of class names whose record's owning path equals p is exactly the
name list stored in the path's `SrcInfo`; and every class-table entry's
owning path is tracked.
-/

def RegInv (m : SrcMgr) : Prop :=
  (∀ p si, jget m.srcs p = some si →
     ∀ n, (∃ c, jget m.classes n = some c ∧ c.srcPath = p) ↔ n ∈ si.clsnames) ∧
  (∀ n c, jget m.classes n = some c → (jget m.srcs c.srcPath).isSome)

/-!
The §6 record layout: five fixed fields, then at most one `ctype:`, one
`access:` and one `signature:` field, in that order.  The three shapes
below are what the emitter actually produces.
-/

def LayoutRecord (rec : List String) : Prop :=
  ∃ nm pth ln kd ct ac sg,
    rec = [nm, pth, toString (ln : Nat) ++ ";\"", kd, "line:" ++ toString ln]
      ++ optField "ctype:" ct ++ optField "access:" ac ++ optField "signature:" sg

def ClassRecShape (rec : List String) : Prop :=
  ∃ nm pth ln,
    rec = [nm, pth, toString (ln : Nat) ++ ";\"", "c", "line:" ++ toString ln,
           "type:class"]

def ExtendRecShape (rec : List String) : Prop :=
  ∃ nm pth ln ct,
    rec = [nm, pth, toString (ln : Nat) ++ ";\"", "x", "line:" ++ toString ln,
           "ctype:" ++ ct]

def MemberRecShape (rec : List String) : Prop :=
  ∃ nm pth ln kd ct ac sg,
    rec = [nm, pth, toString (ln : Nat) ++ ";\"", kd, "line:" ++ toString ln,
           "ctype:" ++ ct, "access:" ++ ac] ++ optField "signature:" sg

/-! Claim C9 machinery: a batch of `checkFile` calls on vanished paths is
a batch of retractions. -/

def removeSrcs (m : SrcMgr) (L : List FPath) : SrcMgr :=
  L.foldl (fun mm q => (removeSrc mm q).1) m

/-- Well-formed program: every `qx.Class.define` candidate extracts
without a (fatal) TypeError, i.e. the file parses cleanly into class
records. -/
def WfProg (p : FPath) (prog : Program) : Prop :=
  ∀ cd ∈ callCands prog, generate cd.1 = "qx.Class.define" →
    ∃ cls, parseCand p cd = .ok cls

/-! Concrete inputs for counterexamples and witnesses. -/

def qxCallee (l : Nat) : Ast :=
  .member (.member (.identifier "qx" l) "Class" l) "define" l

def defStmt (n : String) (body : Ast) (l : Nat) : Stmt :=
  .exprStmt (.call (qxCallee l) [.literal n l, body] l) l

def fooMembers : List (Ast × Ast) :=
  [(.identifier "bar" 4, .func [] 4), (.identifier "baz" 5, .literal "null" 5)]

def fooProps : List (Ast × Ast) :=
  [(.identifier "extend" 2, .other "qx.core.Object" 2),
   (.identifier "members" 3, .object fooMembers 3)]

def fooBody : Ast := .object fooProps 1

def fsW : FSys :=
  fun q => if q = "/app/Foo.js" then .found [defStmt "app.Foo" fooBody 1] else .notFound

def cFooParsed : ClassInfo :=
  ⟨"/app/Foo.js", "app.Foo", fooBody, none,
   some ⟨"qx.core.Object", .other "qx.core.Object" 2, none⟩, [], [],
   [⟨"bar", .func [] 4, some "()"⟩], [⟨"baz", .literal "null" 5, some "(=null)"⟩],
   [], []⟩

def mW : SrcMgr := ⟨[("/app/Foo.js", ⟨["app.Foo"]⟩)], [("app.Foo", cFooParsed)]⟩

def cX : ClassInfo := ⟨"/a.js", "X", .object [] 1, none, none, [], [], [], [], [], []⟩

def mC4 : SrcMgr := ⟨[("/a.js", ⟨["X"]⟩)], [("X", cX)]⟩

def bodyA : Ast := .object [] 1

def bodyX2 : Ast := .object [] 2

def progC4 : Program := [defStmt "A" bodyA 1, defStmt "X" bodyX2 2]

def fsC4 : FSys := fun q => if q = "/b.js" then .found progC4 else .notFound

def fsA : FSys :=
  fun q => if q = "/a.js" then .found [defStmt "X" (.object [] 1) 1] else .notFound

def cFooMin : ClassInfo :=
  ⟨"/a.js", "app.Foo", .object [] 1, none, none, [], [], [], [], [], []⟩

def mC6 : SrcMgr := ⟨[("/a.js", ⟨["app.Foo"]⟩)], [("app.Foo", cFooMin)]⟩

def recC6 : List String := ["app.Foo", "/a.js", "1;\"", "c", "line:1", "type:class"]

def fsGone : FSys := fun _ => .notFound

def cQ : ClassInfo := ⟨"/r/sub/f.js", "Q", .object [] 1, none, none, [], [], [], [], [], []⟩

def mQ : SrcMgr := ⟨[("/r/sub/f.js", ⟨["Q"]⟩)], [("Q", cQ)]⟩

def fsQ : FSys :=
  fun q => if q = "/r/sub/f.js" then .found [defStmt "Q" (.object [] 1) 1] else .notFound

def dQ : DirMgr := ⟨["/r", "/r/sub"], mQ⟩

def b1c : Ast := .object [] 1

def b2c : Ast := .object [] 2

def c1c : ClassInfo := ⟨"/c.js", "C", b1c, none, none, [], [], [], [], [], []⟩

def c2c : ClassInfo := ⟨"/c.js", "C", b2c, none, none, [], [], [], [], [], []⟩

def progC10 : Program :=
  [.exprStmt (.call (qxCallee 1) [.literal "C" 1, b1c] 1) 1,
   .exprStmt (.call (qxCallee 1) [.literal "C" 2, b2c] 2) 2]

def fsC10 : FSys := fun q => if q = "/c.js" then .found progC10 else .notFound

@[simp] theorem jget_nil (k : K) : jget ([] : JsMap K V) k = none := rfl

theorem jget_set_self (m : JsMap K V) (k : K) (v : V) :
    jget (jset m k v) k = some v := by
  induction m with
  | nil => simp [jset, jget]
  | cons e m ih =>
    obtain ⟨k', v'⟩ := e
    by_cases h : k' = k <;> simp [jset, jget, h, ih]

theorem jget_set_ne (m : JsMap K V) (k q : K) (v : V) (h : q ≠ k) :
    jget (jset m k v) q = jget m q := by
  induction m with
  | nil => simp [jset, jget, Ne.symm h]
  | cons e m ih =>
    obtain ⟨k', v'⟩ := e
    by_cases h1 : k' = k
    · subst h1
      simp [jset, jget, Ne.symm h]
    · by_cases h2 : k' = q <;> simp [jset, jget, h1, h2, ih, h, Ne.symm h]

theorem jget_del_self (m : JsMap K V) (k : K) :
    jget (jdel m k) k = none := by
  induction m with
  | nil => simp [jdel]
  | cons e m ih =>
    obtain ⟨k', v'⟩ := e
    by_cases h : k' = k <;> simp [jdel, jget, h, ih]

theorem jget_del_ne (m : JsMap K V) (k q : K) (h : q ≠ k) :
    jget (jdel m k) q = jget m q := by
  induction m with
  | nil => simp [jdel]
  | cons e m ih =>
    obtain ⟨k', v'⟩ := e
    by_cases h1 : k' = k
    · subst h1
      simp [jdel, jget, Ne.symm h, ih]
    · by_cases h2 : k' = q <;> simp [jdel, jget, h1, h2, ih, h, Ne.symm h]

theorem jget_eq_none_iff (m : JsMap K V) (k : K) :
    jget m k = none ↔ ∀ e ∈ m, e.1 ≠ k := by
  induction m with
  | nil => simp
  | cons e m ih =>
    obtain ⟨k', v'⟩ := e
    by_cases h : k' = k <;> simp [jget, h, ih]

theorem jget_isSome_iff_mem_keys (m : JsMap K V) (k : K) :
    (jget m k).isSome ↔ k ∈ jkeys m := by
  induction m with
  | nil => simp [jkeys]
  | cons e m ih =>
    obtain ⟨k', v'⟩ := e
    by_cases h : k' = k
    · simp [jget, jkeys, h, ih]
    · simp [jget, jkeys, h, ih, Ne.symm h]

theorem jdel_eq_of_jget_none (m : JsMap K V) (k : K) (h : jget m k = none) :
    jdel m k = m := by
  induction m with
  | nil => simp [jdel]
  | cons e m ih =>
    obtain ⟨k', v'⟩ := e
    by_cases h1 : k' = k
    · simp [jget, h1] at h
    · simp [jget, h1] at h
      simp [jdel, h1, ih h]

theorem jdel_set_self_of_jget_none (m : JsMap K V) (k : K) (v : V)
    (h : jget m k = none) : jdel (jset m k v) k = m := by
  induction m with
  | nil => simp [jset, jdel]
  | cons e m ih =>
    obtain ⟨k', v'⟩ := e
    by_cases h1 : k' = k
    · simp [jget, h1] at h
    · simp [jget, h1] at h
      simp [jset, jdel, h1, ih h]

theorem jdel_set_self (m : JsMap K V) (k : K) (v : V) :
    jdel (jset m k v) k = jdel m k := by
  induction m with
  | nil => simp [jset, jdel]
  | cons e m ih =>
    obtain ⟨k', v'⟩ := e
    by_cases h : k' = k <;> simp [jset, jdel, h, ih]

theorem jdel_set_comm (m : JsMap K V) (k a : K) (v : V) (h : k ≠ a) :
    jdel (jset m k v) a = jset (jdel m a) k v := by
  induction m with
  | nil => simp [jset, jdel, h]
  | cons e m ih =>
    obtain ⟨k', v'⟩ := e
    by_cases h1 : k' = k
    · subst h1
      simp [jset, jdel, h]
    · by_cases h2 : k' = a <;> simp [jset, jdel, h1, h2, ih, h, Ne.symm h]

/-! Lemmas about the two registry folds. -/

theorem jget_removeClasses (ctab : JsMap String ClassInfo) (names : List String)
    (n : String) :
    jget (removeClasses ctab names) n = if n ∈ names then none else jget ctab n := by
  induction names generalizing ctab with
  | nil => simp [removeClasses]
  | cons a l ih =>
    show jget (removeClasses (jdel ctab a) l) n = _
    rw [ih]
    by_cases h1 : n ∈ l
    · simp [h1]
    · by_cases h2 : n = a
      · subst h2
        simp [h1, jget_del_self]
      · simp [h1, h2, jget_del_ne _ _ _ h2]

theorem removeClasses_set_mem (ctab : JsMap String ClassInfo) (names : List String)
    (k : String) (v : ClassInfo) (hk : k ∈ names) :
    removeClasses (jset ctab k v) names = removeClasses ctab names := by
  induction names generalizing ctab with
  | nil => cases hk
  | cons a l ih =>
    by_cases h : k = a
    · subst h
      show removeClasses (jdel (jset ctab k v) k) l = removeClasses (jdel ctab k) l
      rw [jdel_set_self]
    · have hk' : k ∈ l := by
        cases hk with
        | head => exact absurd rfl h
        | tail _ h' => exact h'
      show removeClasses (jdel (jset ctab k v) a) l = removeClasses (jdel ctab a) l
      rw [jdel_set_comm _ _ _ _ h, ih _ hk']

theorem removeClasses_eq_self (ctab : JsMap String ClassInfo) (names : List String)
    (h : ∀ n ∈ names, jget ctab n = none) :
    removeClasses ctab names = ctab := by
  induction names generalizing ctab with
  | nil => rfl
  | cons a l ih =>
    show removeClasses (jdel ctab a) l = ctab
    rw [jdel_eq_of_jget_none _ _ (h a (by simp))]
    exact ih _ (fun n hn => h n (by simp [hn]))

theorem removeClasses_insertAll (cl : List ClassInfo) (ctab : JsMap String ClassInfo)
    (names : List String) (h : ∀ r ∈ cl, r.name ∈ names) :
    removeClasses (insertAll cl ctab) names = removeClasses ctab names := by
  induction cl generalizing ctab with
  | nil => rfl
  | cons r l ih =>
    show removeClasses (insertAll l (jset ctab r.name r)) names = _
    rw [ih _ (fun x hx => h x (by simp [hx])),
        removeClasses_set_mem _ _ _ _ (h r (by simp))]

theorem jget_insertAll (cl : List ClassInfo) (ctab : JsMap String ClassInfo)
    (n : String) :
    jget (insertAll cl ctab) n =
      match lastWith cl n with
      | some r => some r
      | none => jget ctab n := by
  induction cl generalizing ctab with
  | nil => simp [insertAll, lastWith]
  | cons r l ih =>
    show jget (insertAll l (jset ctab r.name r)) n = _
    rw [ih]
    cases hl : lastWith l n with
    | some x => simp [lastWith, hl]
    | none =>
      by_cases h : r.name = n
      · subst h
        simp [lastWith, hl, jget_set_self]
      · simp [lastWith, hl, h, jget_set_ne _ _ _ _ (Ne.symm h)]

theorem lastWith_isSome_iff (cl : List ClassInfo) (n : String) :
    (lastWith cl n).isSome ↔ n ∈ cl.map (·.name) := by
  induction cl with
  | nil => simp [lastWith]
  | cons r l ih =>
    simp only [lastWith, List.map_cons, List.mem_cons]
    cases hl : lastWith l n with
    | some x =>
      have hm : n ∈ l.map (·.name) := ih.mp (by rw [hl]; rfl)
      simp [hm]
    | none =>
      rw [hl] at ih
      simp only [Option.isSome_none, Bool.false_eq_true, false_iff] at ih
      by_cases h : r.name = n
      · simp [h]
      · rw [if_neg h]
        constructor
        · intro hs
          simp at hs
        · rintro (hh | hm)
          · exact absurd hh.symm h
          · exact absurd hm ih

theorem lastWith_spec (cl : List ClassInfo) (n : String) (r : ClassInfo)
    (h : lastWith cl n = some r) : r ∈ cl ∧ r.name = n := by
  induction cl with
  | nil => cases h
  | cons x l ih =>
    simp only [lastWith] at h
    cases hl : lastWith l n with
    | some y =>
      rw [hl] at h
      injection h with h
      subst h
      have := ih hl
      exact ⟨by simp [this.1], this.2⟩
    | none =>
      rw [hl] at h
      by_cases hx : x.name = n
      · simp [hx] at h
        subst h
        exact ⟨by simp, hx⟩
      · simp [hx] at h

theorem regInv_empty : RegInv emptySrcMgr := by
  constructor
  · intro p si h
    simp [emptySrcMgr] at h
  · intro n c h
    simp [emptySrcMgr] at h

theorem removeSrc_srcs_self (m : SrcMgr) (p : FPath) :
    jget (removeSrc m p).1.srcs p = none := by
  unfold removeSrc
  cases h : jget m.srcs p with
  | none => exact h
  | some si => exact jget_del_self _ _

theorem removeSrc_srcs_ne (m : SrcMgr) (p q : FPath) (h : q ≠ p) :
    jget (removeSrc m p).1.srcs q = jget m.srcs q := by
  unfold removeSrc
  cases hp : jget m.srcs p with
  | none => rfl
  | some si => exact jget_del_ne _ _ _ h

theorem removeSrc_classes_iff (m : SrcMgr) (p : FPath) (hInv : RegInv m)
    (n : String) (c : ClassInfo) :
    jget (removeSrc m p).1.classes n = some c ↔
      (jget m.classes n = some c ∧ c.srcPath ≠ p) := by
  unfold removeSrc
  cases hp : jget m.srcs p with
  | none =>
    simp only []
    constructor
    · intro h
      refine ⟨h, fun hc => ?_⟩
      have := hInv.2 n c h
      rw [hc, hp] at this
      simp at this
    · exact fun h => h.1
  | some si =>
    simp only [jget_removeClasses]
    by_cases hn : n ∈ si.clsnames
    · simp only [hn, if_pos]
      constructor
      · intro h
        cases h
      · rintro ⟨hc, hne⟩
        have := (hInv.1 p si hp n).mpr hn
        obtain ⟨c', hc', hp'⟩ := this
        rw [hc] at hc'
        injection hc' with hc'
        subst hc'
        exact absurd hp' hne
    · simp only [hn, if_neg, ite_false]
      constructor
      · intro h
        refine ⟨h, fun hc => ?_⟩
        exact hn ((hInv.1 p si hp n).mp ⟨c, h, hc⟩)
      · exact fun h => h.1

theorem regInv_removeSrc (m : SrcMgr) (p : FPath) (hInv : RegInv m) :
    RegInv (removeSrc m p).1 := by
  constructor
  · intro q si' hq n
    have hqp : q ≠ p := by
      intro h
      rw [h, removeSrc_srcs_self] at hq
      cases hq
    rw [removeSrc_srcs_ne _ _ _ hqp] at hq
    rw [← hInv.1 q si' hq n]
    constructor
    · rintro ⟨c, hc, hcp⟩
      exact ⟨c, (removeSrc_classes_iff m p hInv n c |>.mp hc).1, hcp⟩
    · rintro ⟨c, hc, hcp⟩
      refine ⟨c, ?_, hcp⟩
      rw [removeSrc_classes_iff m p hInv n c]
      exact ⟨hc, by rw [hcp]; exact hqp⟩
  · intro n c hc
    obtain ⟨hc', hne⟩ := (removeSrc_classes_iff m p hInv n c).mp hc
    have := hInv.2 n c hc'
    rw [removeSrc_srcs_ne _ _ _ hne]
    exact this

/-! Extractor lemmas: the section dispatch never changes the owning path
or the class name, and only appends to the method/property collections. -/

theorem membersStep_spec (c : ClassInfo) (kv : Ast × Ast) :
    (membersStep c kv).srcPath = c.srcPath ∧
    (membersStep c kv).name = c.name ∧
    (∃ t, (membersStep c kv).methods = c.methods ++ t) ∧
    (∃ t, (membersStep c kv).properties = c.properties ++ t) := by
  obtain ⟨ka, va⟩ := kv
  unfold membersStep
  cases va <;>
    first
    | exact ⟨rfl, rfl, ⟨_, rfl⟩, ⟨[], (List.append_nil _).symm⟩⟩
    | exact ⟨rfl, rfl, ⟨[], (List.append_nil _).symm⟩, ⟨_, rfl⟩⟩

theorem membersFold_spec (ps : List (Ast × Ast)) (c : ClassInfo) :
    (ps.foldl membersStep c).srcPath = c.srcPath ∧
    (ps.foldl membersStep c).name = c.name ∧
    (∃ t, (ps.foldl membersStep c).methods = c.methods ++ t) ∧
    (∃ t, (ps.foldl membersStep c).properties = c.properties ++ t) := by
  induction ps generalizing c with
  | nil => exact ⟨rfl, rfl, ⟨[], (List.append_nil _).symm⟩, ⟨[], (List.append_nil _).symm⟩⟩
  | cons kv ps ih =>
    simp only [List.foldl_cons]
    obtain ⟨e1, e2, ⟨t, ht⟩, ⟨u, hu⟩⟩ := ih (membersStep c kv)
    obtain ⟨s1, s2, ⟨t', ht'⟩, ⟨u', hu'⟩⟩ := membersStep_spec c kv
    refine ⟨by rw [e1, s1], by rw [e2, s2], ⟨t' ++ t, ?_⟩, ⟨u' ++ u, ?_⟩⟩
    · rw [ht, ht', List.append_assoc]
    · rw [hu, hu', List.append_assoc]

theorem parseClassProp_spec (cls cls' : ClassInfo) (k v : Ast)
    (h : parseClassProp cls k v = .ok cls') :
    cls'.srcPath = cls.srcPath ∧ cls'.name = cls.name ∧
    (∃ t, cls'.methods = cls.methods ++ t) ∧
    (∃ t, cls'.properties = cls.properties ++ t) := by
  have nn : ∀ (l : List Tag), l = l ++ [] := fun l => (List.append_nil l).symm
  cases hsec : sectionName k with
  | none =>
    simp only [parseClassProp, hsec] at h
    injection h with h
    subst h
    exact ⟨rfl, rfl, ⟨[], nn _⟩, ⟨[], nn _⟩⟩
  | some s =>
    simp only [parseClassProp, hsec] at h
    by_cases h1 : s = "extend"
    · rw [if_pos h1] at h
      injection h with h
      subst h
      exact ⟨rfl, rfl, ⟨[], nn _⟩, ⟨[], nn _⟩⟩
    rw [if_neg h1] at h
    by_cases h2 : s = "include"
    · rw [if_pos h2] at h
      cases v <;> (injection h with h; subst h; exact ⟨rfl, rfl, ⟨[], nn _⟩, ⟨[], nn _⟩⟩)
    rw [if_neg h2] at h
    by_cases h3 : s = "implement"
    · rw [if_pos h3] at h
      cases v <;> (injection h with h; subst h; exact ⟨rfl, rfl, ⟨[], nn _⟩, ⟨[], nn _⟩⟩)
    rw [if_neg h3] at h
    by_cases h4 : s = "construct"
    · rw [if_pos h4] at h
      cases v <;>
        first
        | exact Except.noConfusion h
        | (injection h with h; subst h; exact ⟨rfl, rfl, ⟨_, rfl⟩, ⟨[], nn _⟩⟩)
    rw [if_neg h4] at h
    by_cases h5 : s = "destruct"
    · rw [if_pos h5] at h
      cases v <;>
        first
        | exact Except.noConfusion h
        | (injection h with h; subst h; exact ⟨rfl, rfl, ⟨_, rfl⟩, ⟨[], nn _⟩⟩)
    rw [if_neg h5] at h
    by_cases h6 : s = "statics"
    · rw [if_pos h6] at h
      cases v <;>
        first
        | exact Except.noConfusion h
        | (injection h with h; subst h; exact ⟨rfl, rfl, ⟨[], nn _⟩, ⟨[], nn _⟩⟩)
    rw [if_neg h6] at h
    by_cases h7 : s = "members"
    · rw [if_pos h7] at h
      cases v <;>
        first
        | exact Except.noConfusion h
        | (injection h with h; subst h
           exact ⟨(membersFold_spec _ _).1, (membersFold_spec _ _).2.1,
                  (membersFold_spec _ _).2.2.1, (membersFold_spec _ _).2.2.2⟩)
    rw [if_neg h7] at h
    by_cases h8 : s = "properties"
    · rw [if_pos h8] at h
      cases v <;>
        first
        | exact Except.noConfusion h
        | (injection h with h; subst h; exact ⟨rfl, rfl, ⟨[], nn _⟩, ⟨_, rfl⟩⟩)
    rw [if_neg h8] at h
    by_cases h9 : s = "events"
    · rw [if_pos h9] at h
      cases v <;>
        first
        | exact Except.noConfusion h
        | (injection h with h; subst h; exact ⟨rfl, rfl, ⟨[], nn _⟩, ⟨[], nn _⟩⟩)
    rw [if_neg h9] at h
    by_cases h10 : s = "type"
    · rw [if_pos h10] at h
      injection h with h
      subst h
      exact ⟨rfl, rfl, ⟨[], nn _⟩, ⟨[], nn _⟩⟩
    rw [if_neg h10] at h
    by_cases h11 : s = "environment"
    · rw [if_pos h11] at h
      injection h with h
      subst h
      exact ⟨rfl, rfl, ⟨[], nn _⟩, ⟨[], nn _⟩⟩
    rw [if_neg h11] at h
    by_cases h12 : s = "defer"
    · rw [if_pos h12] at h
      injection h with h
      subst h
      exact ⟨rfl, rfl, ⟨[], nn _⟩, ⟨[], nn _⟩⟩
    rw [if_neg h12] at h
    injection h with h
    subst h
    exact ⟨rfl, rfl, ⟨[], nn _⟩, ⟨[], nn _⟩⟩

theorem foldProps_spec (props : List (Ast × Ast)) (c cls : ClassInfo)
    (h : props.foldlM (fun cl kv => parseClassProp cl kv.1 kv.2) c = .ok cls) :
    cls.srcPath = c.srcPath ∧ cls.name = c.name ∧
    (∀ t ∈ c.methods, t ∈ cls.methods) ∧
    (∀ t ∈ c.properties, t ∈ cls.properties) := by
  induction props generalizing c with
  | nil =>
    simp only [List.foldlM_nil] at h
    injection h with h
    subst h
    exact ⟨rfl, rfl, fun t ht => ht, fun t ht => ht⟩
  | cons kv ps ih =>
    rw [List.foldlM_cons] at h
    cases hstep : parseClassProp c kv.1 kv.2 with
    | error e =>
      rw [hstep] at h
      exact Except.noConfusion h
    | ok c' =>
      rw [hstep] at h
      have h' : ps.foldlM (fun cl kv => parseClassProp cl kv.1 kv.2) c' = .ok cls := h
      obtain ⟨e1, e2, e3, e4⟩ := ih c' h'
      obtain ⟨s1, s2, ⟨t, ht⟩, ⟨u, hu⟩⟩ := parseClassProp_spec c c' kv.1 kv.2 hstep
      exact ⟨by rw [e1, s1], by rw [e2, s2],
             fun x hx => e3 x (by rw [ht]; exact List.mem_append_left _ hx),
             fun x hx => e4 x (by rw [hu]; exact List.mem_append_left _ hx)⟩

theorem parseClass_spec (p : FPath) (n : String) (b : Ast) (cls : ClassInfo)
    (h : parseClass p n b = .ok cls) : cls.srcPath = p ∧ cls.name = n := by
  cases b
  case object props l =>
    have := foldProps_spec props _ cls h
    exact ⟨this.1, this.2.1⟩
  all_goals exact Except.noConfusion h

theorem parseCand_spec (p : FPath) (cd : Ast × List Ast) (cls : ClassInfo)
    (h : parseCand p cd = .ok cls) : cls.srcPath = p ∧ cls.name = candName cd := by
  obtain ⟨cal, args⟩ := cd
  cases args with
  | nil => exact Except.noConfusion h
  | cons a0 rest =>
    cases rest with
    | nil => exact Except.noConfusion h
    | cons a1 rest' =>
      have := parseClass_spec p (astValue a0) a1 cls h
      exact ⟨this.1, this.2⟩

/-! Registry lemmas around `_parseClasses`, `_addSrc` and `checkFile`. -/

theorem removeSrc_of_none (m : SrcMgr) (p : FPath) (h : jget m.srcs p = none) :
    removeSrc m p = (m, false) := by
  unfold removeSrc
  rw [h]

theorem removeSrc_of_some (m : SrcMgr) (p : FPath) (si : SrcInfo)
    (h : jget m.srcs p = some si) :
    removeSrc m p =
      ({ srcs := jdel m.srcs p, classes := removeClasses m.classes si.clsnames }, true) := by
  unfold removeSrc
  rw [h]

theorem parseClassesGo_ok (ctab : JsMap String ClassInfo) (p : FPath)
    (cands : List (Ast × List Ast)) (cl : List ClassInfo)
    (h : parseClassesGo ctab p cands = .ok cl) :
    ∀ r ∈ cl, r.srcPath = p ∧ ∀ c, jget ctab r.name = some c → c.srcPath = p := by
  induction cands generalizing cl with
  | nil =>
    injection h with h
    subst h
    intro r hr
    cases hr
  | cons cd rest ih =>
    by_cases hq : generate cd.1 = "qx.Class.define"
    · simp only [parseClassesGo, if_pos hq] at h
      cases hpc : parseCand p cd with
      | error e =>
        simp only [hpc] at h
        exact Except.noConfusion h
      | ok cls =>
        simp only [hpc] at h
        obtain ⟨hclsp, hclsn⟩ := parseCand_spec p cd cls hpc
        cases hg : jget ctab (candName cd) with
        | some prev =>
          simp only [hg] at h
          by_cases hne : prev.srcPath ≠ p
          · rw [if_pos hne] at h
            exact Except.noConfusion h
          · rw [if_neg hne] at h
            push_neg at hne
            cases hrest : parseClassesGo ctab p rest with
            | error e =>
              simp only [hrest] at h
              exact Except.noConfusion h
            | ok cl' =>
              simp only [hrest] at h
              injection h with h
              subst h
              intro r hr
              cases hr with
              | head =>
                refine ⟨hclsp, fun c hc => ?_⟩
                rw [hclsn, hg] at hc
                injection hc with hc
                subst hc
                exact hne
              | tail _ hr' => exact ih cl' hrest r hr'
        | none =>
          simp only [hg] at h
          cases hrest : parseClassesGo ctab p rest with
          | error e =>
            simp only [hrest] at h
            exact Except.noConfusion h
          | ok cl' =>
            simp only [hrest] at h
            injection h with h
            subst h
            intro r hr
            cases hr with
            | head =>
              refine ⟨hclsp, fun c hc => ?_⟩
              rw [hclsn, hg] at hc
              exact Option.noConfusion hc
            | tail _ hr' => exact ih cl' hrest r hr'
    · simp only [parseClassesGo, if_neg hq] at h
      exact ih cl h

/-- Under the assumption that every `qx.Class.define` candidate extracts
cleanly, `_parseClasses` fails with the duplicate-class-name error iff
some candidate's class name is already bound in the class table to a
record owned by a different path. -/
theorem parseClassesGo_err_iff (ctab : JsMap String ClassInfo) (p : FPath)
    (cands : List (Ast × List Ast))
    (hwf : ∀ cd ∈ cands, generate cd.1 = "qx.Class.define" →
             ∃ cls, parseCand p cd = .ok cls) :
    parseClassesGo ctab p cands = .error .duplicateClassName ↔
      ∃ cd ∈ cands, generate cd.1 = "qx.Class.define" ∧
        ∃ c, jget ctab (candName cd) = some c ∧ c.srcPath ≠ p := by
  induction cands with
  | nil => simp [parseClassesGo]
  | cons cd rest ih =>
    have ihr := ih (fun cd' h' hq' => hwf cd' (List.mem_cons_of_mem _ h') hq')
    by_cases hq : generate cd.1 = "qx.Class.define"
    · obtain ⟨cls, hpc⟩ := hwf cd (List.mem_cons_self _ _) hq
      simp only [parseClassesGo, if_pos hq, hpc]
      cases hg : jget ctab (candName cd) with
      | some prev =>
        simp only []
        by_cases hne : prev.srcPath ≠ p
        · rw [if_pos hne]
          simp only [true_iff]
          exact ⟨cd, List.mem_cons_self _ _, hq, prev, hg, hne⟩
        · rw [if_neg hne]
          push_neg at hne
          constructor
          · intro h
            rcases hrest : parseClassesGo ctab p rest with e | cl
            · rw [hrest] at h
              injection h with h
              obtain ⟨cd', hmem, hq', c, hc, hcp⟩ := ihr.mp (by rw [hrest, h])
              exact ⟨cd', List.mem_cons_of_mem _ hmem, hq', c, hc, hcp⟩
            · rw [hrest] at h
              exact Except.noConfusion h
          · rintro ⟨cd', hmem, hq', c, hc, hcp⟩
            cases hmem with
            | head =>
              rw [hg] at hc
              injection hc with hc
              subst hc
              exact absurd hne hcp
            | tail _ hmem' =>
              have := ihr.mpr ⟨cd', hmem', hq', c, hc, hcp⟩
              rw [this]
        | none =>
          simp only []
          constructor
          · intro h
            rcases hrest : parseClassesGo ctab p rest with e | cl
            · rw [hrest] at h
              injection h with h
              obtain ⟨cd', hmem, hq', c, hc, hcp⟩ := ihr.mp (by rw [hrest, h])
              exact ⟨cd', List.mem_cons_of_mem _ hmem, hq', c, hc, hcp⟩
            · rw [hrest] at h
              exact Except.noConfusion h
          · rintro ⟨cd', hmem, hq', c, hc, hcp⟩
            cases hmem with
            | head =>
              rw [hg] at hc
              exact Option.noConfusion hc
            | tail _ hmem' =>
              have := ihr.mpr ⟨cd', hmem', hq', c, hc, hcp⟩
              rw [this]
    · simp only [parseClassesGo, if_neg hq]
      rw [ihr]
      constructor
      · rintro ⟨cd', hmem, hq', c, hc, hcp⟩
        exact ⟨cd', List.mem_cons_of_mem _ hmem, hq', c, hc, hcp⟩
      · rintro ⟨cd', hmem, hq', c, hc, hcp⟩
        cases hmem with
        | head => exact absurd hq' hq
        | tail _ hmem' => exact ⟨cd', hmem', hq', c, hc, hcp⟩

theorem addSrc_ok (m : SrcMgr) (p : FPath) (prog : Program) (m2 : SrcMgr)
    (h : addSrc m p prog = .ok m2) :
    ∃ cl, parseClasses m p prog = .ok cl ∧
      m2 = { srcs := jset m.srcs p ⟨cl.map (·.name)⟩,
             classes := insertAll cl m.classes } := by
  unfold addSrc at h
  cases hpc : parseClasses m p prog with
  | error e =>
    rw [hpc] at h
    exact Except.noConfusion h
  | ok cl =>
    rw [hpc] at h
    injection h with h
    exact ⟨cl, rfl, h.symm⟩

theorem addSrc_fresh (m : SrcMgr) (p : FPath) (prog : Program) (cl : List ClassInfo)
    (hInv : RegInv m) (hp : jget m.srcs p = none)
    (hok : parseClasses m p prog = .ok cl) :
    ∀ r ∈ cl, jget m.classes r.name = none := by
  intro r hr
  have hspec := parseClassesGo_ok m.classes p (callCands prog) cl hok r hr
  cases hc : jget m.classes r.name with
  | none => rfl
  | some c =>
    have hcp := hspec.2 c hc
    have hs := hInv.2 r.name c hc
    rw [hcp, hp] at hs
    simp at hs

theorem regInv_addSrc (m : SrcMgr) (p : FPath) (prog : Program) (m2 : SrcMgr)
    (hInv : RegInv m) (hp : jget m.srcs p = none)
    (h : addSrc m p prog = .ok m2) : RegInv m2 := by
  obtain ⟨cl, hpc, hm2⟩ := addSrc_ok m p prog m2 h
  subst hm2
  have hsp : ∀ r ∈ cl, r.srcPath = p :=
    fun r hr => (parseClassesGo_ok m.classes p _ cl hpc r hr).1
  have hfresh : ∀ r ∈ cl, jget m.classes r.name = none :=
    addSrc_fresh m p prog cl hInv hp hpc
  constructor
  · intro q si hq n
    by_cases hqp : q = p
    · subst hqp
      rw [jget_set_self] at hq
      injection hq with hq
      subst hq
      show (∃ c, jget (insertAll cl m.classes) n = some c ∧ c.srcPath = q) ↔
        n ∈ cl.map (·.name)
      rw [jget_insertAll]
      cases hlw : lastWith cl n with
      | some r =>
        simp only []
        obtain ⟨hrm, hrn⟩ := lastWith_spec cl n r hlw
        constructor
        · intro _
          exact List.mem_map.mpr ⟨r, hrm, hrn⟩
        · intro _
          exact ⟨r, rfl, hsp r hrm⟩
      | none =>
        simp only []
        constructor
        · rintro ⟨c, hc, hcp⟩
          have hs := hInv.2 n c hc
          rw [hcp, hp] at hs
          simp at hs
        · intro hn
          have hsome : (lastWith cl n).isSome := (lastWith_isSome_iff cl n).mpr hn
          rw [hlw] at hsome
          simp at hsome
    · rw [jget_set_ne _ _ _ _ hqp] at hq
      rw [jget_insertAll]
      cases hlw : lastWith cl n with
      | some r =>
        simp only []
        obtain ⟨hrm, hrn⟩ := lastWith_spec cl n r hlw
        constructor
        · rintro ⟨c, hc, hcq⟩
          injection hc with hc
          subst hc
          rw [hsp r hrm] at hcq
          exact absurd hcq.symm hqp
        · intro hn
          obtain ⟨c, hc, hcq⟩ := (hInv.1 q si hq n).mpr hn
          have hno := hfresh r hrm
          rw [hrn] at hno
          rw [hno] at hc
          exact Option.noConfusion hc
      | none =>
        simp only []
        exact hInv.1 q si hq n
  · intro n c hc
    rw [jget_insertAll] at hc
    cases hlw : lastWith cl n with
    | some r =>
      rw [hlw] at hc
      injection hc with hc
      subst hc
      rw [hsp r (lastWith_spec cl n r hlw).1, jget_set_self]
      rfl
    | none =>
      rw [hlw] at hc
      have hs := hInv.2 n c hc
      by_cases hcp : c.srcPath = p
      · rw [hcp, hp] at hs
        simp at hs
      · rw [jget_set_ne _ _ _ _ hcp]
        exact hs

/-- `checkFile` on a path whose read reports ENOENT: unconditional
retraction, then the non-fatal `false` return. -/
theorem checkFile_notFound (fs : FSys) (m : SrcMgr) (p : FPath)
    (h : fs p = .notFound) :
    checkFile fs m p = ((removeSrc m p).1, .ok false) := by
  unfold checkFile
  rw [h]

/-- `checkFile` on a path whose read fails otherwise: the error is fatal
and propagates, after the unconditional retraction. -/
theorem checkFile_readErr (fs : FSys) (m : SrcMgr) (p : FPath)
    (h : fs p = .readErr) :
    checkFile fs m p = ((removeSrc m p).1, .error .ioError) := by
  unfold checkFile
  rw [h]

theorem checkFile_found_ok (fs : FSys) (m m2 : SrcMgr) (p : FPath) (prog : Program)
    (hfs : fs p = .found prog)
    (had : addSrc (removeSrc m p).1 p prog = .ok m2) :
    checkFile fs m p = (m2, .ok true) := by
  unfold checkFile
  rw [hfs]
  simp only [had]

theorem checkFile_found_err (fs : FSys) (m : SrcMgr) (p : FPath) (prog : Program)
    (e : Err) (hfs : fs p = .found prog)
    (had : addSrc (removeSrc m p).1 p prog = .error e) :
    checkFile fs m p = ((removeSrc m p).1, .error e) := by
  unfold checkFile
  rw [hfs]
  simp only [had]

/-- The ownership invariant is preserved by `checkFile` whatever the
outcome (the state component is the registry when the call returns or
its exception propagates). -/
theorem regInv_checkFile (fs : FSys) (m : SrcMgr) (p : FPath) (hInv : RegInv m) :
    RegInv (checkFile fs m p).1 := by
  cases hfs : fs p with
  | notFound =>
    rw [checkFile_notFound fs m p hfs]
    exact regInv_removeSrc m p hInv
  | readErr =>
    rw [checkFile_readErr fs m p hfs]
    exact regInv_removeSrc m p hInv
  | found prog =>
    cases had : addSrc (removeSrc m p).1 p prog with
    | error e =>
      rw [checkFile_found_err fs m p prog e hfs had]
      exact regInv_removeSrc m p hInv
    | ok m2 =>
      rw [checkFile_found_ok fs m m2 p prog hfs had]
      exact regInv_addSrc _ p prog m2 (regInv_removeSrc m p hInv)
        (removeSrc_srcs_self m p) had

/-- Re-checking a path with unchanged file content right after a
completed `checkFile` is a no-op: the same state and the same outcome. -/
theorem checkFile_idem (fs : FSys) (m m1 : SrcMgr) (p : FPath) (b : Bool)
    (hInv : RegInv m) (h : checkFile fs m p = (m1, .ok b)) :
    checkFile fs m1 p = (m1, .ok b) := by
  have hmrp : jget (removeSrc m p).1.srcs p = none := removeSrc_srcs_self m p
  have hInvr : RegInv (removeSrc m p).1 := regInv_removeSrc m p hInv
  cases hfs : fs p with
  | notFound =>
    rw [checkFile_notFound fs m p hfs] at h
    injection h with h1 h2
    injection h2 with h2
    subst h1
    subst h2
    rw [checkFile_notFound fs _ p hfs, removeSrc_of_none _ _ hmrp]
  | readErr =>
    rw [checkFile_readErr fs m p hfs] at h
    injection h with h1 h2
    exact Except.noConfusion h2
  | found prog =>
    cases had : addSrc (removeSrc m p).1 p prog with
    | error e =>
      rw [checkFile_found_err fs m p prog e hfs had] at h
      injection h with h1 h2
      exact Except.noConfusion h2
    | ok m2 =>
      rw [checkFile_found_ok fs m m2 p prog hfs had] at h
      injection h with h1 h2
      injection h2 with h2
      subst h1
      subst h2
      obtain ⟨cl, hpc, hm2⟩ := addSrc_ok _ p prog m2 had
      have hfresh : ∀ r ∈ cl, jget (removeSrc m p).1.classes r.name = none :=
        addSrc_fresh _ p prog cl hInvr hmrp hpc
      have hsrcs2 : jget m2.srcs p = some ⟨cl.map (·.name)⟩ := by
        rw [hm2]
        exact jget_set_self _ _ _
      have hst : (removeSrc m2 p).1 = (removeSrc m p).1 := by
        rw [removeSrc_of_some m2 p _ hsrcs2]
        simp only []
        rw [hm2]
        simp only []
        have e1 : jdel (jset (removeSrc m p).1.srcs p ⟨cl.map (·.name)⟩) p =
            (removeSrc m p).1.srcs := jdel_set_self_of_jget_none _ _ _ hmrp
        have e2 : removeClasses (insertAll cl (removeSrc m p).1.classes)
            (cl.map (·.name)) = (removeSrc m p).1.classes := by
          rw [removeClasses_insertAll _ _ _
                (fun r hr => List.mem_map.mpr ⟨r, hr, rfl⟩)]
          exact removeClasses_eq_self _ _ (fun n hn => by
            obtain ⟨r, hr, hrn⟩ := List.mem_map.mp hn
            rw [← hrn]
            exact hfresh r hr)
        rw [e1, e2]
      have had2 : addSrc (removeSrc m2 p).1 p prog = .ok m2 := by
        rw [hst]
        exact had
      exact checkFile_found_ok fs m2 m2 p prog hfs had2

/-! Emitter lemmas: the member sort is sorted by line number and stable
(entries with equal line numbers keep their pre-sort encounter order). -/

theorem sortMembers_sorted (l : List MemberTag) :
    List.Sorted tagLE (sortMembers l) :=
  List.sorted_insertionSort tagLE l

theorem filter_orderedInsert_lineno (k : Nat) (a : MemberTag) (l : List MemberTag) :
    (List.orderedInsert tagLE a l).filter (fun e => e.lineno == k) =
      if a.lineno = k then a :: l.filter (fun e => e.lineno == k)
      else l.filter (fun e => e.lineno == k) := by
  induction l with
  | nil =>
    by_cases h : a.lineno = k <;>
      simp [List.orderedInsert, List.filter_cons, beq_iff_eq, h]
  | cons b l ih =>
    by_cases hab : tagLE a b
    · rw [List.orderedInsert_of_le _ _ hab]
      by_cases h : a.lineno = k <;>
        simp [List.filter_cons, beq_iff_eq, h]
    · have hlt : b.lineno < a.lineno := Nat.lt_of_not_le hab
      simp only [List.orderedInsert, if_neg hab]
      by_cases hb : b.lineno = k
      · have hak : a.lineno ≠ k := by
          intro h
          rw [hb, h] at hlt
          exact Nat.lt_irrefl k hlt
        simp [List.filter_cons, beq_iff_eq, hb, hak, ih]
      · by_cases h : a.lineno = k <;>
          simp [List.filter_cons, beq_iff_eq, hb, h, ih]

theorem sortMembers_stable (l : List MemberTag) (k : Nat) :
    (sortMembers l).filter (fun e => e.lineno == k) =
      l.filter (fun e => e.lineno == k) := by
  induction l with
  | nil => rfl
  | cons a l ih =>
    show (List.orderedInsert tagLE a (sortMembers l)).filter _ = _
    rw [filter_orderedInsert_lineno]
    by_cases h : a.lineno = k <;> simp [List.filter_cons, beq_iff_eq, h, ih]

theorem extendRecShape_layout (rec : List String) (h : ExtendRecShape rec) :
    LayoutRecord rec := by
  obtain ⟨nm, pth, ln, ct, hr⟩ := h
  exact ⟨nm, pth, ln, "x", some ct, none, none, by simp [optField, hr]⟩

theorem memberRecShape_layout (rec : List String) (h : MemberRecShape rec) :
    LayoutRecord rec := by
  obtain ⟨nm, pth, ln, kd, ct, ac, sg, hr⟩ := h
  exact ⟨nm, pth, ln, kd, some ct, some ac, sg, by simp [optField, hr]⟩

/-- Every record the emitter produces is the class shape (which carries
the extra `type:class` field), the extends shape, or a member shape. -/
theorem ctagRecords_shapes (m : SrcMgr) (rec : List String)
    (h : rec ∈ ctagRecords m) :
    ClassRecShape rec ∨ ExtendRecShape rec ∨ MemberRecShape rec := by
  unfold ctagRecords at h
  rw [List.mem_flatten] at h
  obtain ⟨l, hl, hrec⟩ := h
  rw [List.mem_map] at hl
  obtain ⟨cls, _, hcls⟩ := hl
  subst hcls
  unfold classRecords at hrec
  cases hrec with
  | head =>
    exact Or.inl ⟨cls.name, cls.srcPath, cls.bodyT.line, rfl⟩
  | tail _ htail =>
    rcases List.mem_append.mp htail with hext | hmem
    case inl =>
      cases hx : cls.extend with
      | none =>
        rw [hx] at hext
        cases hext
      | some e =>
        rw [hx] at hext
        cases hext with
        | head =>
          exact Or.inr (Or.inl ⟨e.name, cls.srcPath, e.t.line, cls.name, rfl⟩)
        | tail _ hh => cases hh
    case inr =>
      rw [List.mem_map] at hmem
      obtain ⟨mt, _, hmt⟩ := hmem
      subst hmt
      exact Or.inr (Or.inr
        ⟨mt.name, cls.srcPath, mt.lineno, mt.kind, cls.name,
         accessOf mt.name, mt.signature, rfl⟩)

/-! Claim C8 machinery: every entry of a `members` section ends up as a
method (function value) or a property (any other value), with the
signatures the extractor builds. -/

theorem membersFold_mem (ps : List (Ast × Ast)) (c : ClassInfo)
    (kv : Ast × Ast) (hkv : kv ∈ ps) :
    (∀ fps fl, kv.2 = .func fps fl →
      (⟨keyName kv.1, kv.2, some (paramSig fps)⟩ : Tag) ∈
        (ps.foldl membersStep c).methods) ∧
    ((∀ fps fl, kv.2 ≠ .func fps fl) →
      (⟨keyName kv.1, kv.2, some ("(=" ++ generate kv.2 ++ ")")⟩ : Tag) ∈
        (ps.foldl membersStep c).properties) := by
  induction ps generalizing c with
  | nil => cases hkv
  | cons kv0 ps ih =>
    cases hkv with
    | head =>
      rw [List.foldl_cons]
      obtain ⟨hsp, hsn, ⟨t, ht⟩, ⟨u, hu⟩⟩ := membersFold_spec ps (membersStep c kv)
      constructor
      · intro fps fl heq
        obtain ⟨ka, va⟩ := kv
        simp only [] at heq
        subst heq
        rw [ht]
        refine List.mem_append_left _ ?_
        show _ ∈ (membersStep c (ka, Ast.func fps fl)).methods
        unfold membersStep
        simp only []
        exact List.mem_append_right _ (List.mem_singleton.mpr rfl)
      · intro hne
        obtain ⟨ka, va⟩ := kv
        rw [hu]
        refine List.mem_append_left _ ?_
        show _ ∈ (membersStep c (ka, va)).properties
        cases va with
        | func fps fl => exact absurd rfl (hne fps fl)
        | identifier s l =>
          unfold membersStep
          exact List.mem_append_right _ (List.mem_singleton.mpr rfl)
        | literal s l =>
          unfold membersStep
          exact List.mem_append_right _ (List.mem_singleton.mpr rfl)
        | member o pr l =>
          unfold membersStep
          exact List.mem_append_right _ (List.mem_singleton.mpr rfl)
        | array es l =>
          unfold membersStep
          exact List.mem_append_right _ (List.mem_singleton.mpr rfl)
        | object pr l =>
          unfold membersStep
          exact List.mem_append_right _ (List.mem_singleton.mpr rfl)
        | call ca ar l =>
          unfold membersStep
          exact List.mem_append_right _ (List.mem_singleton.mpr rfl)
        | other g l =>
          unfold membersStep
          exact List.mem_append_right _ (List.mem_singleton.mpr rfl)
    | tail _ hkv' =>
      rw [List.foldl_cons]
      exact ih (membersStep c kv0) hkv'

theorem foldProps_members (props : List (Ast × Ast)) (c cls : ClassInfo)
    (h : props.foldlM (fun cl kv => parseClassProp cl kv.1 kv.2) c = .ok cls)
    (ml kl : Nat) (mprops : List (Ast × Ast))
    (hmem : (Ast.identifier "members" ml, Ast.object mprops kl) ∈ props)
    (kv : Ast × Ast) (hkv : kv ∈ mprops) :
    (∀ fps fl, kv.2 = .func fps fl →
      (⟨keyName kv.1, kv.2, some (paramSig fps)⟩ : Tag) ∈ cls.methods) ∧
    ((∀ fps fl, kv.2 ≠ .func fps fl) →
      (⟨keyName kv.1, kv.2, some ("(=" ++ generate kv.2 ++ ")")⟩ : Tag) ∈
        cls.properties) := by
  induction props generalizing c with
  | nil => cases hmem
  | cons kv0 ps ih =>
    rw [List.foldlM_cons] at h
    cases hstep : parseClassProp c kv0.1 kv0.2 with
    | error e =>
      rw [hstep] at h
      exact Except.noConfusion h
    | ok c' =>
      rw [hstep] at h
      have h' : ps.foldlM (fun cl kv => parseClassProp cl kv.1 kv.2) c' = .ok cls := h
      cases hmem with
      | head =>
        simp [parseClassProp, sectionName] at hstep
        subst hstep
        obtain ⟨hmeth, hprop⟩ := membersFold_mem mprops c kv hkv
        obtain ⟨_, _, e3, e4⟩ := foldProps_spec ps _ cls h'
        exact ⟨fun fps fl heq => e3 _ (hmeth fps fl heq),
               fun hne => e4 _ (hprop hne)⟩
      | tail _ hmem' =>
        exact ih c' h' hmem'

theorem checkFiles_notFound (fs : FSys) (m : SrcMgr) (L : List FPath)
    (hL : ∀ q ∈ L, fs q = .notFound) :
    checkFiles fs m L = (removeSrcs m L, none) := by
  induction L generalizing m with
  | nil => rfl
  | cons q L ih =>
    show (match checkFile fs m q with
          | (m', .ok _) => checkFiles fs m' L
          | (m', .error e) => (m', some e)) = _
    rw [checkFile_notFound fs m q (hL q (List.mem_cons_self _ _))]
    exact ih _ (fun q' hq' => hL q' (List.mem_cons_of_mem _ hq'))

theorem removeSrcs_spec (L : List FPath) (m : SrcMgr) (hInv : RegInv m) :
    RegInv (removeSrcs m L) ∧
    (∀ q, jget (removeSrcs m L).srcs q = if q ∈ L then none else jget m.srcs q) ∧
    (∀ n c, jget (removeSrcs m L).classes n = some c ↔
      (jget m.classes n = some c ∧ c.srcPath ∉ L)) := by
  induction L generalizing m with
  | nil =>
    refine ⟨hInv, fun q => by simp [removeSrcs], fun n c => by simp [removeSrcs]⟩
  | cons a L ih =>
    have hstep : removeSrcs m (a :: L) = removeSrcs (removeSrc m a).1 L := rfl
    obtain ⟨ih1, ih2, ih3⟩ := ih (removeSrc m a).1 (regInv_removeSrc m a hInv)
    rw [hstep]
    refine ⟨ih1, fun q => ?_, fun n c => ?_⟩
    · rw [ih2 q]
      by_cases hqL : q ∈ L
      · simp [hqL]
      · by_cases hqa : q = a
        · subst hqa
          simp [hqL, removeSrc_srcs_self]
        · simp [hqL, hqa, removeSrc_srcs_ne m a q hqa]
    · rw [ih3 n c, removeSrc_classes_iff m a hInv n c]
      constructor
      · rintro ⟨⟨hc, hne⟩, hnl⟩
        exact ⟨hc, by simp [hne, hnl]⟩
      · rintro ⟨hc, hnal⟩
        simp only [List.mem_cons, not_or] at hnal
        exact ⟨⟨hc, hnal.1⟩, hnal.2⟩

/-! Remaining helper lemmas for the claim theorems. -/

theorem addSrc_err_iff (m : SrcMgr) (p : FPath) (prog : Program) (e : Err) :
    addSrc m p prog = .error e ↔ parseClasses m p prog = .error e := by
  unfold addSrc
  cases hpc : parseClasses m p prog with
  | error e' => simp
  | ok cl => simp

theorem checkFile_dup_iff (fs : FSys) (m : SrcMgr) (p : FPath) (prog : Program)
    (hfs : fs p = .found prog) :
    (checkFile fs m p).2 = .error .duplicateClassName ↔
      addSrc (removeSrc m p).1 p prog = .error .duplicateClassName := by
  cases had : addSrc (removeSrc m p).1 p prog with
  | ok m2 =>
    rw [checkFile_found_ok fs m m2 p prog hfs had]
    simp
  | error e =>
    rw [checkFile_found_err fs m p prog e hfs had]
    simp

theorem dirRm_neg (fs : FSys) (d : DirMgr) (path : FPath)
    (hc : d.dirs.contains path = false) :
    dirRm fs d path = (d, [], .ok false) := by
  unfold dirRm
  rw [hc]
  rfl

theorem dirRm_pos (fs : FSys) (d : DirMgr) (path : FPath)
    (hc : d.dirs.contains path = true) :
    dirRm fs d path =
      (match checkFiles fs d.srcm
          ((jkeys d.srcm.srcs).filter (fun s => path.isPrefixOf s)) with
       | (m', none) =>
         (⟨d.dirs.filter (fun s => !(path.isPrefixOf s)), m'⟩, [path], .ok true)
       | (m', some e) =>
         (⟨d.dirs.filter (fun s => !(path.isPrefixOf s)), m'⟩, [], .error e)) := by
  unfold dirRm
  rw [hc]
  rfl

/-!
The ten claims.
-/

/-- Claim C1: after every successful completion of `checkFile` (normal
return, including the non-fatal not-found return `false`), for every
tracked path p the set of class names whose record is owned by p is
exactly the FileOwnership list of p, and the class table has no entry
owned by an untracked path. -/
theorem qx_c1_checkFile_preserves_inv (fs : FSys) (m m' : SrcMgr) (p : FPath)
    (b : Bool) (hInv : RegInv m) (h : checkFile fs m p = (m', .ok b)) :
    RegInv m' := by
  have hh := regInv_checkFile fs m p hInv
  rw [h] at hh
  exact hh

/-- Claim C2: calling `checkFile p` twice in succession with unchanged
content leaves the registry in a state identical to the state after the
first call, and the emitted tag text is identical after both calls. -/
theorem qx_c2_checkFile_idempotent (fs : FSys) (m m1 : SrcMgr) (p : FPath)
    (b : Bool) (hInv : RegInv m) (h : checkFile fs m p = (m1, .ok b)) :
    checkFile fs m1 p = (m1, .ok b) ∧
    genCtags (checkFile fs m1 p).1 = genCtags m1 := by
  have h2 := checkFile_idem fs m m1 p b hInv h
  exact ⟨h2, by rw [h2]⟩

/-- Claim C3: with the file readable and cleanly extractable,
`checkFile` raises the fatal duplicate-class-name error iff some
class-definition candidate's name is already in the class table under a
different owning path; and a completed `checkFile` followed by a second
check of the same unchanged file never raises. -/
theorem qx_c3_duplicate_iff (fs : FSys) (m : SrcMgr) (p : FPath) (prog : Program)
    (hInv : RegInv m) (hfs : fs p = .found prog) (hwf : WfProg p prog) :
    ((checkFile fs m p).2 = .error .duplicateClassName ↔
      ∃ cd ∈ callCands prog, generate cd.1 = "qx.Class.define" ∧
        ∃ c, jget m.classes (candName cd) = some c ∧ c.srcPath ≠ p) ∧
    (∀ m1 b, checkFile fs m p = (m1, .ok b) →
      ∃ m2 b2, checkFile fs m1 p = (m2, .ok b2)) := by
  constructor
  · rw [checkFile_dup_iff fs m p prog hfs,
        addSrc_err_iff (removeSrc m p).1 p prog .duplicateClassName]
    rw [show parseClasses (removeSrc m p).1 p prog =
          parseClassesGo (removeSrc m p).1.classes p (callCands prog) from rfl]
    rw [parseClassesGo_err_iff (removeSrc m p).1.classes p (callCands prog) hwf]
    constructor
    · rintro ⟨cd, hmem, hq, c, hc, hcp⟩
      exact ⟨cd, hmem, hq, c, (removeSrc_classes_iff m p hInv _ c |>.mp hc).1, hcp⟩
    · rintro ⟨cd, hmem, hq, c, hc, hcp⟩
      exact ⟨cd, hmem, hq, c, (removeSrc_classes_iff m p hInv _ c).mpr ⟨hc, hcp⟩, hcp⟩
  · intro m1 b h
    exact ⟨m1, b, checkFile_idem fs m m1 p b hInv h⟩

/-- Claim C5: a read failing with ENOENT makes `checkFile` stop after the
unconditional retraction — no ownership entry for the path and no class
owned by it remain — and report absence through the distinguished
`false` return, not an exception; any other read failure propagates as a
fatal error. -/
theorem qx_c5_not_found (fs : FSys) (m : SrcMgr) (p : FPath) (hInv : RegInv m) :
    (fs p = .notFound →
      checkFile fs m p = ((removeSrc m p).1, .ok false) ∧
      jget (removeSrc m p).1.srcs p = none ∧
      (∀ n c, jget (removeSrc m p).1.classes n = some c → c.srcPath ≠ p)) ∧
    (fs p = .readErr →
      checkFile fs m p = ((removeSrc m p).1, .error .ioError)) := by
  constructor
  · intro hfs
    exact ⟨checkFile_notFound fs m p hfs, removeSrc_srcs_self m p,
           fun n c hc => ((removeSrc_classes_iff m p hInv n c).mp hc).2⟩
  · intro hfs
    exact checkFile_readErr fs m p hfs

/-- Claim C7: per class the emitter outputs the class record, then the
extends record when present, then the member records of all six kinds
sorted ascending by source line, the sort being stable so that equal
line numbers keep their encounter order (include, implement, methods,
properties, statics, events, each in extraction order). -/
theorem qx_c7_member_order (cls : ClassInfo) :
    classRecords cls =
      classFields cls ::
        ((match cls.extend with
          | some e => [extendFields cls e]
          | none => []) ++
         (sortMembers (memberTags cls)).map (memberFields cls)) ∧
    List.Sorted tagLE (sortMembers (memberTags cls)) ∧
    (∀ k, (sortMembers (memberTags cls)).filter (fun e => e.lineno == k) =
      (memberTags cls).filter (fun e => e.lineno == k)) :=
  ⟨rfl, sortMembers_sorted _, fun k => sortMembers_stable _ k⟩

/-- Claim C8: in a `members` section, a function-valued entry is recorded
as a method whose signature is the regenerated parameter list joined by
", " inside parentheses, and any other entry as a property whose
signature is "(=" ++ regenerated default value ++ ")". -/
theorem qx_c8_members_dispatch (p : FPath) (cn : String) (bl ml kl : Nat)
    (props mprops : List (Ast × Ast)) (cls : ClassInfo)
    (hcls : parseClass p cn (.object props bl) = .ok cls)
    (hmem : (Ast.identifier "members" ml, Ast.object mprops kl) ∈ props)
    (kv : Ast × Ast) (hkv : kv ∈ mprops) :
    (∀ fps fl, kv.2 = .func fps fl →
      (⟨keyName kv.1, kv.2,
        some ("(" ++ String.intercalate ", " (fps.map generate) ++ ")")⟩ : Tag) ∈
        cls.methods) ∧
    ((∀ fps fl, kv.2 ≠ .func fps fl) →
      (⟨keyName kv.1, kv.2, some ("(=" ++ generate kv.2 ++ ")")⟩ : Tag) ∈
        cls.properties) := by
  have h : props.foldlM (fun cl kv => parseClassProp cl kv.1 kv.2)
      { srcPath := p, name := cn, bodyT := Ast.object props bl,
        type := none, extend := none, incl := [], implement := [],
        methods := [], properties := [], statics := [], events := [] } = .ok cls := hcls
  exact foldProps_members props _ cls h ml kl mprops hmem kv hkv

/-- Claim C4 (amended): when `checkFile` aborts with the duplicate-class
error, the registry is exactly the post-retraction state: the conflicting
entry did not modify the class table, and no record extracted from the
file — including those from earlier loop iterations — has been inserted,
because `_parseClasses` only collects records and `_addSrc` inserts them
after the whole loop succeeds. -/
theorem qx_c4_amended (fs : FSys) (m m' : SrcMgr) (p : FPath) (prog : Program)
    (hfs : fs p = .found prog)
    (h : checkFile fs m p = (m', .error .duplicateClassName)) :
    m' = (removeSrc m p).1 := by
  cases had : addSrc (removeSrc m p).1 p prog with
  | ok m2 =>
    rw [checkFile_found_ok fs m m2 p prog hfs had] at h
    injection h with h1 h2
    exact Except.noConfusion h2
  | error e =>
    rw [checkFile_found_err fs m p prog e hfs had] at h
    injection h with h1 h2
    exact h1.symm

/-- Claim C6 (amended): every emitter record is the class shape, the
extends shape or a member shape; the latter two match the §6 optional
field layout exactly, while the class record carries the extra field
`type:class` outside that layout; and the emitted text is the header
followed by the tab-joined records. -/
theorem qx_c6_amended (m : SrcMgr) (rec : List String)
    (h : rec ∈ ctagRecords m) :
    (ClassRecShape rec ∨ ExtendRecShape rec ∨ MemberRecShape rec) ∧
    (ExtendRecShape rec ∨ MemberRecShape rec → LayoutRecord rec) ∧
    genCtags m = ctagsHeader ++
      String.join ((ctagRecords m).map (fun flds => String.intercalate "\t" flds ++ "\n")) :=
  ⟨ctagRecords_shapes m rec h,
   fun hsh => hsh.elim (extendRecShape_layout rec) (memberRecShape_layout rec),
   rfl⟩

/-- Claim C9: `_rm` on an unknown directory is a no-op returning false;
on a known directory it drops every known directory prefixed by the
path, re-checks (and thereby retracts, the reads failing with not-found)
every owned source path prefixed by it, emits exactly one removal
notification carrying the path, and returns true. -/
theorem qx_c9_dir_removal (fs : FSys) (d : DirMgr) (path : FPath)
    (hInv : RegInv d.srcm)
    (hgone : ∀ s : FPath, path.isPrefixOf s → fs s = .notFound) :
    (d.dirs.contains path = false → dirRm fs d path = (d, [], .ok false)) ∧
    (d.dirs.contains path = true →
      ∃ m', dirRm fs d path =
          ({ dirs := d.dirs.filter (fun s => !(path.isPrefixOf s)),
             srcm := m' }, [path], .ok true) ∧
        (∀ s, path.isPrefixOf s = true → jget m'.srcs s = none) ∧
        (∀ s, path.isPrefixOf s = false → jget m'.srcs s = jget d.srcm.srcs s) ∧
        (∀ n c, jget m'.classes n = some c ↔
          (jget d.srcm.classes n = some c ∧ path.isPrefixOf c.srcPath = false))) := by
  constructor
  · exact dirRm_neg fs d path
  · intro hc
    have hLnf : ∀ q ∈ (jkeys d.srcm.srcs).filter (fun s => path.isPrefixOf s),
        fs q = .notFound := by
      intro q hq
      exact hgone q (List.mem_filter.mp hq).2
    have hcf := checkFiles_notFound fs d.srcm _ hLnf
    obtain ⟨hI, hs, hcl⟩ := removeSrcs_spec
      ((jkeys d.srcm.srcs).filter (fun s => path.isPrefixOf s)) d.srcm hInv
    refine ⟨removeSrcs d.srcm ((jkeys d.srcm.srcs).filter (fun s => path.isPrefixOf s)),
            ?_, ?_, ?_, ?_⟩
    · rw [dirRm_pos fs d path hc, hcf]
    · intro s hpre
      by_cases hmem : s ∈ (jkeys d.srcm.srcs).filter (fun s => path.isPrefixOf s)
      · rw [hs s, if_pos hmem]
      · rw [hs s, if_neg hmem]
        cases hjs : jget d.srcm.srcs s with
        | none => rfl
        | some si =>
          exfalso
          apply hmem
          refine List.mem_filter.mpr ⟨?_, hpre⟩
          exact (jget_isSome_iff_mem_keys d.srcm.srcs s).mp (by rw [hjs]; rfl)
    · intro s hpre
      rw [hs s, if_neg (fun hmem => by
        have := (List.mem_filter.mp hmem).2
        rw [hpre] at this
        exact Bool.noConfusion this)]
    · intro n c
      rw [hcl n c]
      constructor
      · rintro ⟨hcm, hnl⟩
        refine ⟨hcm, ?_⟩
        cases hpf : path.isPrefixOf c.srcPath with
        | false => rfl
        | true =>
          exfalso
          apply hnl
          refine List.mem_filter.mpr ⟨?_, hpf⟩
          exact (jget_isSome_iff_mem_keys d.srcm.srcs c.srcPath).mp (hInv.2 n c hcm)
      · rintro ⟨hcm, hpf⟩
        refine ⟨hcm, fun hmem => ?_⟩
        have hp2 := (List.mem_filter.mp hmem).2
        rw [hpf] at hp2
        exact Bool.noConfusion hp2

/-- Claim C10: a single file defining the same class name twice raises no
error — the duplicate check only compares against records owned by a
different path, and records of the current file are inserted only after
the loop — so the later record overwrites the earlier one in the class
table while the file's ownership list carries the name twice. -/
theorem qx_c10_same_file_duplicate (fs : FSys) (m : SrcMgr) (p : FPath)
    (n : String) (cal b1 b2 : Ast) (l1 l2 la1 la2 : Nat) (c1 c2 : ClassInfo)
    (hq : generate cal = "qx.Class.define")
    (hsrc : jget m.srcs p = none) (hcls : jget m.classes n = none)
    (hfs : fs p = .found [.exprStmt (.call cal [.literal n la1, b1] l1) l1,
                          .exprStmt (.call cal [.literal n la2, b2] l2) l2])
    (hp1 : parseClass p n b1 = .ok c1) (hp2 : parseClass p n b2 = .ok c2) :
    checkFile fs m p =
      ({ srcs := jset m.srcs p ⟨[n, n]⟩,
         classes := jset (jset m.classes n c1) n c2 }, .ok true) ∧
    jget (jset (jset m.classes n c1) n c2) n = some c2 ∧
    jget (jset m.srcs p ⟨[n, n]⟩) p = some ⟨[n, n]⟩ := by
  obtain ⟨_, hn1⟩ := parseClass_spec p n b1 c1 hp1
  obtain ⟨_, hn2⟩ := parseClass_spec p n b2 c2 hp2
  have hrm : removeSrc m p = (m, false) := removeSrc_of_none m p hsrc
  have hpc : parseClasses m p
      [.exprStmt (.call cal [.literal n la1, b1] l1) l1,
       .exprStmt (.call cal [.literal n la2, b2] l2) l2] = .ok [c1, c2] := by
    show parseClassesGo m.classes p
      [(cal, [Ast.literal n la1, b1]), (cal, [Ast.literal n la2, b2])] = .ok [c1, c2]
    simp only [parseClassesGo, hq, if_true, parseCand, astValue, candName]
    rw [hp1, hp2]
    simp only [hcls]
  have had : addSrc m p
      [.exprStmt (.call cal [.literal n la1, b1] l1) l1,
       .exprStmt (.call cal [.literal n la2, b2] l2) l2] =
      .ok { srcs := jset m.srcs p ⟨[n, n]⟩,
            classes := jset (jset m.classes n c1) n c2 } := by
    unfold addSrc
    rw [hpc]
    show (Except.ok
      { srcs := jset m.srcs p ⟨[c1.name, c2.name]⟩,
        classes := jset (jset m.classes c1.name c1) c2.name c2 } : Except Err SrcMgr) = _
    rw [hn1, hn2]
  refine ⟨?_, jget_set_self _ _ _, jget_set_self _ _ _⟩
  have hrm1 : (removeSrc m p).1 = m := by rw [hrm]
  refine checkFile_found_ok fs m _ p _ hfs ?_
  rw [hrm1]
  exact had

theorem regInv_mW : RegInv mW := by
  have h := regInv_checkFile fsW emptySrcMgr "/app/Foo.js" regInv_empty
  rw [show checkFile fsW emptySrcMgr "/app/Foo.js" = (mW, .ok true) from rfl] at h
  exact h

theorem regInv_mC4 : RegInv mC4 := by
  have h := regInv_checkFile fsA emptySrcMgr "/a.js" regInv_empty
  rw [show checkFile fsA emptySrcMgr "/a.js" = (mC4, .ok true) from rfl] at h
  exact h

theorem regInv_mQ : RegInv mQ := by
  have h := regInv_checkFile fsQ emptySrcMgr "/r/sub/f.js" regInv_empty
  rw [show checkFile fsQ emptySrcMgr "/r/sub/f.js" = (mQ, .ok true) from rfl] at h
  exact h

theorem wf_progC4 : WfProg "/b.js" progC4 := by
  intro cd hcd hq
  rw [show callCands progC4 =
      [(qxCallee 1, [Ast.literal "A" 1, bodyA]),
       (qxCallee 2, [Ast.literal "X" 2, bodyX2])] from rfl] at hcd
  simp only [List.mem_cons, List.not_mem_nil, or_false] at hcd
  rcases hcd with h | h <;> subst h
  · exact ⟨⟨"/b.js", "A", bodyA, none, none, [], [], [], [], [], []⟩, rfl⟩
  · exact ⟨⟨"/b.js", "X", bodyX2, none, none, [], [], [], [], [], []⟩, rfl⟩

theorem type_class_ne_ctype (ct : String) : "type:class" ≠ "ctype:" ++ ct := by
  obtain ⟨cd⟩ := ct
  intro h
  have hd : ['t', 'y', 'p', 'e', ':', 'c', 'l', 'a', 's', 's'] =
      'c' :: 't' :: 'y' :: 'p' :: 'e' :: ':' :: cd := congrArg String.data h
  injection hd with h1 _
  exact absurd h1 (by decide)

theorem type_class_ne_access (ac : String) : "type:class" ≠ "access:" ++ ac := by
  obtain ⟨cd⟩ := ac
  intro h
  have hd : ['t', 'y', 'p', 'e', ':', 'c', 'l', 'a', 's', 's'] =
      'a' :: 'c' :: 'c' :: 'e' :: 's' :: 's' :: ':' :: cd := congrArg String.data h
  injection hd with h1 _
  exact absurd h1 (by decide)

theorem type_class_ne_signature (sg : String) : "type:class" ≠ "signature:" ++ sg := by
  obtain ⟨cd⟩ := sg
  intro h
  have hd : ['t', 'y', 'p', 'e', ':', 'c', 'l', 'a', 's', 's'] =
      's' :: 'i' :: 'g' :: 'n' :: 'a' :: 't' :: 'u' :: 'r' :: 'e' :: ':' :: cd :=
    congrArg String.data h
  injection hd with h1 _
  exact absurd h1 (by decide)

/-- Claim C4 (counterexample): checking "/b.js" — which defines class A
and then class X, the latter conflicting with "/a.js" — aborts with the
duplicate error, yet at that moment the class table does not contain the
record for A extracted earlier in the loop; the registry is exactly the
pre-call state (retraction was a no-op for an untracked path). -/
theorem qx_c4_counterexample :
    checkFile fsC4 mC4 "/b.js" = (mC4, .error .duplicateClassName) ∧
    jget mC4.classes "A" = none :=
  ⟨rfl, rfl⟩

/-- Claim C6 (counterexample): the class record the emitter produces for
a minimal class is a record of `ctagRecords` whose sixth field is
`type:class`, which does not match the §6 layout (only `ctype:`,
`access:`, `signature:` may follow the five fixed fields). -/
theorem qx_c6_counterexample :
    recC6 ∈ ctagRecords mC6 ∧ ¬ LayoutRecord recC6 := by
  constructor
  · rw [show ctagRecords mC6 = [recC6] from rfl]
    exact List.mem_singleton.mpr rfl
  · rintro ⟨nm, pth, ln, kd, ct, ac, sg, heq⟩
    rcases ct with _ | ct <;> rcases ac with _ | ac <;> rcases sg with _ | sg <;>
      simp [optField, recC6] at heq
    · exact type_class_ne_signature sg heq.2.2.2.2.2
    · exact type_class_ne_access ac heq.2.2.2.2.2
    · exact type_class_ne_ctype ct heq.2.2.2.2.2

theorem qx_c1_witness : RegInv mW :=
  qx_c1_checkFile_preserves_inv fsW emptySrcMgr mW "/app/Foo.js" true
    regInv_empty rfl

theorem qx_c2_witness :
    checkFile fsW mW "/app/Foo.js" = (mW, .ok true) ∧
    genCtags (checkFile fsW mW "/app/Foo.js").1 = genCtags mW :=
  qx_c2_checkFile_idempotent fsW emptySrcMgr mW "/app/Foo.js" true
    regInv_empty rfl

theorem qx_c3_witness :
    (checkFile fsC4 mC4 "/b.js").2 = .error .duplicateClassName :=
  (qx_c3_duplicate_iff fsC4 mC4 "/b.js" progC4 regInv_mC4 rfl wf_progC4).1.mpr
    ⟨(qxCallee 2, [Ast.literal "X" 2, bodyX2]),
     List.Mem.tail _ (List.Mem.head _), rfl, cX, rfl, by decide⟩

theorem qx_c4_witness : mC4 = (removeSrc mC4 "/b.js").1 :=
  qx_c4_amended fsC4 mC4 mC4 "/b.js" progC4 rfl rfl

theorem qx_c5_witness :
    checkFile fsGone mW "/app/Foo.js" = ((removeSrc mW "/app/Foo.js").1, .ok false) ∧
    jget (removeSrc mW "/app/Foo.js").1.srcs "/app/Foo.js" = none ∧
    (∀ n c, jget (removeSrc mW "/app/Foo.js").1.classes n = some c →
      c.srcPath ≠ "/app/Foo.js") :=
  (qx_c5_not_found fsGone mW "/app/Foo.js" regInv_mW).1 rfl

theorem qx_c6_witness :
    (ClassRecShape recC6 ∨ ExtendRecShape recC6 ∨ MemberRecShape recC6) ∧
    (ExtendRecShape recC6 ∨ MemberRecShape recC6 → LayoutRecord recC6) ∧
    genCtags mC6 = ctagsHeader ++
      String.join ((ctagRecords mC6).map (fun flds => String.intercalate "\t" flds ++ "\n")) :=
  qx_c6_amended mC6 recC6 (List.mem_singleton.mpr rfl)

theorem qx_c8_witness :
    (⟨"bar", Ast.func [] 4, some "()"⟩ : Tag) ∈ cFooParsed.methods :=
  (qx_c8_members_dispatch "/app/Foo.js" "app.Foo" 1 3 3 fooProps fooMembers
    cFooParsed rfl (List.Mem.tail _ (List.Mem.head _))
    (.identifier "bar" 4, .func [] 4) (List.Mem.head _)).1 [] 4 rfl

theorem qx_c9_witness :
    ∃ m', dirRm fsGone dQ "/r/sub" =
        ({ dirs := dQ.dirs.filter (fun s => !(String.isPrefixOf "/r/sub" s)),
           srcm := m' }, ["/r/sub"], .ok true) ∧
      (∀ s, String.isPrefixOf "/r/sub" s = true → jget m'.srcs s = none) ∧
      (∀ s, String.isPrefixOf "/r/sub" s = false →
        jget m'.srcs s = jget dQ.srcm.srcs s) ∧
      (∀ n c, jget m'.classes n = some c ↔
        (jget dQ.srcm.classes n = some c ∧
         String.isPrefixOf "/r/sub" c.srcPath = false)) :=
  (qx_c9_dir_removal fsGone dQ "/r/sub" regInv_mQ (fun _ _ => rfl)).2 rfl

theorem qx_c10_witness :
    checkFile fsC10 emptySrcMgr "/c.js" =
      ({ srcs := jset emptySrcMgr.srcs "/c.js" ⟨["C", "C"]⟩,
         classes := jset (jset emptySrcMgr.classes "C" c1c) "C" c2c }, .ok true) ∧
    jget (jset (jset emptySrcMgr.classes "C" c1c) "C" c2c) "C" = some c2c ∧
    jget (jset emptySrcMgr.srcs "/c.js" ⟨["C", "C"]⟩) "/c.js" = some ⟨["C", "C"]⟩ :=
  qx_c10_same_file_duplicate fsC10 emptySrcMgr "/c.js" "C" (qxCallee 1) b1c b2c
    1 2 1 2 c1c c2c rfl rfl rfl rfl rfl rfl

